import Mathlib

/-!
Verification of the session-tracking service of the ollama-dashboard
repository (`app/services/ollama.py`).  The Python service is shallowly
embedded: the session records and the reconciler state are explicit
structures, the mutating methods become pure functions from state to
state, and the file system and the HTTP status source are modelled by
explicit value types.  Python floats are modelled exactly as IEEE-754
binary64 arithmetic over `ℚ` (round to nearest, ties to even), which is
the semantics of CPython's `float` for the in-range values that occur
here; Python's `round` is round-half-to-even on that exact value.
-/

namespace OllamaDashboard

/-! ## Exact model of binary64 floating point arithmetic -/

/-- Fuel-bounded base-2 logarithm on `ℕ`, structurally recursive so that
the kernel can evaluate it. -/
def log2fuel : Nat → Nat → Nat
  | 0, _ => 0
  | fuel + 1, n => if n < 2 then 0 else log2fuel fuel (n / 2) + 1

/-- Base-2 logarithm, rounded down. -/
def log2 (n : Nat) : Nat := log2fuel n n

theorem log2fuel_spec :
    ∀ (fuel n : Nat), 0 < n → n ≤ fuel →
      2 ^ log2fuel fuel n ≤ n ∧ n < 2 ^ (log2fuel fuel n + 1) := by
  intro fuel
  induction fuel with
  | zero => intro n h1 h2 ; omega
  | succ fuel ih =>
    intro n h1 h2
    by_cases hn : n < 2
    · simp only [log2fuel, if_pos hn]
      constructor
      · simpa using h1
      · simpa using hn
    · have hrec := ih (n / 2) (by omega) (by omega)
      simp only [log2fuel, if_neg hn]
      rcases hrec with ⟨hlo, hhi⟩
      constructor
      · calc 2 ^ (log2fuel fuel (n / 2) + 1) = 2 ^ log2fuel fuel (n / 2) * 2 := by ring
        _ ≤ (n / 2) * 2 := by omega
        _ ≤ n := Nat.div_mul_le_self n 2
      · have hm : n ≤ 2 * (n / 2) + 1 := by omega
        calc n ≤ 2 * (n / 2) + 1 := hm
        _ < 2 ^ (log2fuel fuel (n / 2) + 1 + 1) := by
            have : 2 ^ (log2fuel fuel (n / 2) + 1 + 1) = 2 * 2 ^ (log2fuel fuel (n / 2) + 1) := by ring
            omega

theorem log2_spec (n : Nat) (h : 0 < n) :
    2 ^ log2 n ≤ n ∧ n < 2 ^ (log2 n + 1) :=
  log2fuel_spec n n h le_rfl

/-- Round a rational to the nearest integer, ties to even: the rounding
used both by binary64 arithmetic on the scaled significand and by
Python's built-in `round`. -/
def roundHalfEven (q : ℚ) : ℤ :=
  if q - ⌊q⌋ < 1/2 then ⌊q⌋
  else if 1/2 < q - ⌊q⌋ then ⌊q⌋ + 1
  else if ⌊q⌋ % 2 = 0 then ⌊q⌋ else ⌊q⌋ + 1

theorem roundHalfEven_le (q : ℚ) : (roundHalfEven q : ℚ) ≤ q + 1/2 := by
  unfold roundHalfEven
  have h1 : (⌊q⌋ : ℚ) ≤ q := Int.floor_le q
  have h2 : q < ⌊q⌋ + 1 := Int.lt_floor_add_one q
  split
  · linarith
  · split
    · push_cast ; linarith
    · rename_i hlt hle
      push_cast
      split <;> linarith

theorem le_roundHalfEven (q : ℚ) : q - 1/2 ≤ (roundHalfEven q : ℚ) := by
  unfold roundHalfEven
  have h1 : (⌊q⌋ : ℚ) ≤ q := Int.floor_le q
  have h2 : q < ⌊q⌋ + 1 := Int.lt_floor_add_one q
  split
  · linarith
  · split
    · push_cast ; linarith
    · rename_i hlt hle
      push_cast
      split <;> linarith

theorem roundHalfEven_nonneg {q : ℚ} (h : 0 ≤ q) : 0 ≤ roundHalfEven q := by
  unfold roundHalfEven
  have h1 : 0 ≤ ⌊q⌋ := Int.floor_nonneg.mpr h
  split
  · exact h1
  · split
    · omega
    · split <;> omega

/-- Binary exponent of a positive rational: the unique `e` with
`2 ^ e ≤ q < 2 ^ (e + 1)`. -/
def floatExp (q : ℚ) : ℤ :=
  if q < (2 : ℚ) ^ ((log2 q.num.natAbs : ℤ) - (log2 q.den : ℤ)) then
    (log2 q.num.natAbs : ℤ) - (log2 q.den : ℤ) - 1
  else
    (log2 q.num.natAbs : ℤ) - (log2 q.den : ℤ)

theorem floatExp_spec {q : ℚ} (hq : 0 < q) :
    (2 : ℚ) ^ floatExp q ≤ q ∧ q < (2 : ℚ) ^ (floatExp q + 1) := by
  have hnum : 0 < q.num := Rat.num_pos.mpr hq
  have hden : 0 < q.den := q.pos
  obtain ⟨ha1, ha2⟩ := log2_spec q.num.natAbs (by omega)
  obtain ⟨hb1, hb2⟩ := log2_spec q.den hden
  set a := log2 q.num.natAbs with hadef
  set b := log2 q.den with hbdef
  set e0 : ℤ := (a : ℤ) - (b : ℤ) with he0def
  have hnumcast : (q.num : ℚ) = (q.num.natAbs : ℚ) := by
    rw [Int.cast_natAbs] ; simp [abs_of_pos (show (0:ℚ) < (q.num:ℚ) by exact_mod_cast hnum)]
  have hqeq : q = (q.num : ℚ) / (q.den : ℚ) := (Rat.num_div_den q).symm
  have hdenpos : (0 : ℚ) < (q.den : ℚ) := by exact_mod_cast hden
  -- strict upper bound q < 2 ^ (e0 + 1)
  have hupper : q < (2 : ℚ) ^ (e0 + 1) := by
    have h2 : (2 : ℚ) ^ (e0 + 1) = (2 : ℚ) ^ (a + 1 : ℕ) / (2 : ℚ) ^ (b : ℕ) := by
      rw [eq_div_iff (by positivity), ← zpow_natCast (2:ℚ) (a+1), ← zpow_natCast (2:ℚ) b,
        ← zpow_add₀ (two_ne_zero)]
      congr 1
      push_cast [he0def]
      ring
    rw [hqeq, h2, div_lt_div_iff hdenpos (by positivity)]
    have hna : (q.num : ℚ) < (2 : ℚ) ^ (a + 1 : ℕ) := by
      rw [hnumcast] ; exact_mod_cast ha2
    have hdb : (2 : ℚ) ^ (b : ℕ) ≤ (q.den : ℚ) := by exact_mod_cast hb1
    calc (q.num : ℚ) * (2 : ℚ) ^ (b : ℕ)
        < (2 : ℚ) ^ (a + 1 : ℕ) * (2 : ℚ) ^ (b : ℕ) := by
          apply mul_lt_mul_of_pos_right hna (by positivity)
      _ ≤ (2 : ℚ) ^ (a + 1 : ℕ) * (q.den : ℚ) := by
          apply mul_le_mul_of_nonneg_left hdb (by positivity)
  -- strict lower bound 2 ^ (e0 - 1) < q
  have hlower : (2 : ℚ) ^ (e0 - 1) < q := by
    have h2 : (2 : ℚ) ^ (e0 - 1) = (2 : ℚ) ^ (a : ℕ) / (2 : ℚ) ^ (b + 1 : ℕ) := by
      rw [eq_div_iff (by positivity), ← zpow_natCast (2:ℚ) a, ← zpow_natCast (2:ℚ) (b+1),
        ← zpow_add₀ (two_ne_zero)]
      congr 1
      push_cast [he0def]
      ring
    rw [hqeq, h2, div_lt_div_iff (by positivity) hdenpos]
    have hna : (2 : ℚ) ^ (a : ℕ) ≤ (q.num : ℚ) := by
      rw [hnumcast] ; exact_mod_cast ha1
    have hdb : (q.den : ℚ) < (2 : ℚ) ^ (b + 1 : ℕ) := by exact_mod_cast hb2
    calc (2 : ℚ) ^ (a : ℕ) * (q.den : ℚ)
        < (2 : ℚ) ^ (a : ℕ) * (2 : ℚ) ^ (b + 1 : ℕ) := by
          apply mul_lt_mul_of_pos_left hdb (by positivity)
      _ ≤ (q.num : ℚ) * (2 : ℚ) ^ (b + 1 : ℕ) := by
          apply mul_le_mul_of_nonneg_right hna (by positivity)
  have hfe : floatExp q = if q < (2 : ℚ) ^ e0 then e0 - 1 else e0 := by
    unfold floatExp
    rw [← hadef, ← hbdef, ← he0def]
  rw [hfe]
  split
  · rename_i hcase
    refine ⟨le_of_lt hlower, ?_⟩
    have harith : e0 - 1 + 1 = e0 := by ring
    rw [harith] ; exact hcase
  · rename_i hcase
    exact ⟨le_of_not_lt hcase, hupper⟩

/-- Round a nonnegative rational to the nearest binary64 value
(round to nearest, ties to even).  Subnormals and overflow do not occur
for the values handled by this program and are not modelled; negative
inputs are handled symmetrically. -/
def toDouble (q : ℚ) : ℚ :=
  if q = 0 then 0
  else if 0 < q then
    (roundHalfEven (q * 2 ^ ((52 : ℤ) - floatExp q)) : ℚ) * (2 : ℚ) ^ (floatExp q - 52)
  else
    -((roundHalfEven (-q * 2 ^ ((52 : ℤ) - floatExp (-q))) : ℚ) * (2 : ℚ) ^ (floatExp (-q) - 52))

theorem toDouble_nonneg {q : ℚ} (h : 0 ≤ q) : 0 ≤ toDouble q := by
  unfold toDouble
  rcases eq_or_lt_of_le h with heq | hpos
  · simp [← heq]
  · rw [if_neg (ne_of_gt hpos), if_pos hpos]
    have hs : 0 ≤ q * (2 : ℚ) ^ ((52 : ℤ) - floatExp q) := by positivity
    have hr : 0 ≤ roundHalfEven (q * 2 ^ ((52 : ℤ) - floatExp q)) := roundHalfEven_nonneg hs
    have : (0 : ℚ) ≤ (roundHalfEven (q * 2 ^ ((52 : ℤ) - floatExp q)) : ℚ) := by exact_mod_cast hr
    positivity

theorem toDouble_le {q : ℚ} (h : 0 ≤ q) :
    toDouble q ≤ q * (1 + (2 : ℚ) ^ (-53 : ℤ)) := by
  unfold toDouble
  rcases eq_or_lt_of_le h with heq | hpos
  · simp [← heq]
  · rw [if_neg (ne_of_gt hpos), if_pos hpos]
    set e := floatExp q with hedef
    obtain ⟨he1, _⟩ := floatExp_spec hpos
    have hround : (roundHalfEven (q * 2 ^ ((52 : ℤ) - e)) : ℚ)
        ≤ q * 2 ^ ((52 : ℤ) - e) + 1/2 := roundHalfEven_le _
    have hpow : (0 : ℚ) < (2 : ℚ) ^ (e - 52) := by positivity
    have hmul : (roundHalfEven (q * 2 ^ ((52 : ℤ) - e)) : ℚ) * (2 : ℚ) ^ (e - 52)
        ≤ (q * 2 ^ ((52 : ℤ) - e) + 1/2) * (2 : ℚ) ^ (e - 52) :=
      mul_le_mul_of_nonneg_right hround (le_of_lt hpow)
    refine le_trans hmul ?_
    have hcancel : q * (2 : ℚ) ^ ((52 : ℤ) - e) * (2 : ℚ) ^ (e - 52) = q := by
      rw [mul_assoc, ← zpow_add₀ (two_ne_zero : (2:ℚ) ≠ 0)]
      norm_num
    have herr : (1/2 : ℚ) * (2 : ℚ) ^ (e - 52) ≤ q * (2 : ℚ) ^ (-53 : ℤ) := by
      have h12 : (1/2 : ℚ) = (2 : ℚ) ^ (-1 : ℤ) := by norm_num
      rw [h12, ← zpow_add₀ (two_ne_zero : (2:ℚ) ≠ 0)]
      have : (-1 : ℤ) + (e - 52) = e + -53 := by ring
      rw [this, zpow_add₀ (two_ne_zero : (2:ℚ) ≠ 0)]
      exact mul_le_mul_of_nonneg_right he1 (by positivity)
    calc (q * 2 ^ ((52 : ℤ) - e) + 1/2) * (2 : ℚ) ^ (e - 52)
        = q * (2 : ℚ) ^ ((52 : ℤ) - e) * (2 : ℚ) ^ (e - 52)
          + (1/2 : ℚ) * (2 : ℚ) ^ (e - 52) := by ring
      _ ≤ q + q * (2 : ℚ) ^ (-53 : ℤ) := by rw [hcancel] ; linarith
      _ = q * (1 + (2 : ℚ) ^ (-53 : ℤ)) := by ring

theorem floatExp_eq {q : ℚ} {e : ℤ} (hq : 0 < q)
    (h1 : (2 : ℚ) ^ e ≤ q) (h2 : q < (2 : ℚ) ^ (e + 1)) : floatExp q = e := by
  obtain ⟨hf1, hf2⟩ := floatExp_spec hq
  have hmono : ∀ a b : ℤ, a ≤ b → (2 : ℚ) ^ a ≤ (2 : ℚ) ^ b := by
    intro a b hab
    exact zpow_le_zpow_right₀ one_le_two hab
  by_contra hne
  rcases lt_or_gt_of_ne hne with hlt | hgt
  · have : (2 : ℚ) ^ (floatExp q + 1) ≤ (2 : ℚ) ^ e := hmono _ _ (by omega)
    linarith
  · have : (2 : ℚ) ^ (e + 1) ≤ (2 : ℚ) ^ floatExp q := hmono _ _ (by omega)
    linarith

theorem toDouble_eval {q : ℚ} {e : ℤ} (hq : 0 < q)
    (h1 : (2 : ℚ) ^ e ≤ q) (h2 : q < (2 : ℚ) ^ (e + 1)) :
    toDouble q = (roundHalfEven (q * 2 ^ ((52 : ℤ) - e)) : ℚ) * (2 : ℚ) ^ (e - 52) := by
  unfold toDouble
  rw [if_neg (ne_of_gt hq), if_pos hq, floatExp_eq hq h1 h2]

theorem roundHalfEven_eval_lt {q : ℚ} {n : ℤ} (h1 : (n : ℚ) ≤ q) (h2 : q < n + 1/2) :
    roundHalfEven q = n := by
  have hfl : ⌊q⌋ = n := Int.floor_eq_iff.mpr ⟨h1, by linarith⟩
  unfold roundHalfEven
  rw [hfl, if_pos (by push_cast ; linarith)]

theorem roundHalfEven_eval_gt {q : ℚ} {n : ℤ} (h1 : (n : ℚ) + 1/2 < q) (h2 : q < n + 1) :
    roundHalfEven q = n + 1 := by
  have hfl : ⌊q⌋ = n := Int.floor_eq_iff.mpr ⟨by linarith, by push_cast ; linarith⟩
  unfold roundHalfEven
  rw [hfl, if_neg (by push_cast ; linarith), if_pos (by push_cast ; linarith)]

theorem roundHalfEven_eval_half {q : ℚ} {n : ℤ} (h1 : q = (n : ℚ) + 1/2) (h2 : n % 2 = 0) :
    roundHalfEven q = n := by
  have hfl : ⌊q⌋ = n := Int.floor_eq_iff.mpr ⟨by linarith, by push_cast ; linarith⟩
  unfold roundHalfEven
  rw [hfl, if_neg (by push_cast ; linarith), if_neg (by push_cast ; linarith), if_pos h2]

/-- Python `round` applied to a float: round half to even on the exact
binary64 value. -/
def pyRound (q : ℚ) : ℤ := roundHalfEven q

/-- Binary64 true division of two machine integers, as Python `a / b`:
the exact quotient rounded to the nearest binary64 value. -/
def fdiv (a b : ℕ) : ℚ := toDouble ((a : ℚ) / (b : ℚ))

/-- Binary64 multiplication, as Python `x * y` on floats: the exact
product rounded to the nearest binary64 value. -/
def fmul (x y : ℚ) : ℚ := toDouble (x * y)

/-! ## calculate_memory_split -/

/-- Result record of `OllamaService.calculate_memory_split`. -/
structure MemorySplit where
  cpu_size : String
  cpu_percent : ℤ
  gpu_size : String
  gpu_percent : ℤ
  display : String
deriving DecidableEq

/-- Embeds `OllamaService.calculate_memory_split`.  The byte-count
formatter `format_size` (an external pure display helper) is passed as a
parameter.  `vram_size = none` models a missing/None value; Python's
`vram_size or 0` maps both None and 0 to 0. -/
def calculate_memory_split (format_size : ℕ → String)
    (total_size : ℕ) (vram_size : Option ℕ) : MemorySplit :=
  if total_size = 0 then
    { cpu_size := "0 B", cpu_percent := 0, gpu_size := "0 B", gpu_percent := 0,
      display := "N/A" }
  else
    let v0 := vram_size.getD 0
    let v := if total_size < v0 then total_size else v0
    let cpu_bytes := total_size - v
    let gpu_bytes := v
    let cpu_percent := pyRound (fmul (fdiv cpu_bytes total_size) 100)
    let gpu_percent := pyRound (fmul (fdiv gpu_bytes total_size) 100)
    let cpu_size_formatted := format_size cpu_bytes
    let gpu_size_formatted := format_size gpu_bytes
    let display :=
      if cpu_percent = 0 then gpu_size_formatted ++ " (100% GPU)"
      else if gpu_percent = 0 then cpu_size_formatted ++ " (100% CPU)"
      else cpu_size_formatted ++ " (" ++ toString cpu_percent ++ "%) / "
        ++ gpu_size_formatted ++ " (" ++ toString gpu_percent ++ "%)"
    { cpu_size := cpu_size_formatted, cpu_percent := cpu_percent,
      gpu_size := gpu_size_formatted, gpu_percent := gpu_percent,
      display := display }

/-- Bounds for one rounded percentage `round((c / t) * 100)` computed in
binary64 arithmetic, for `c ≤ t`. -/
theorem percent_bounds {c t : ℕ} (ht : 0 < t) (hc : c ≤ t) :
    0 ≤ pyRound (fmul (fdiv c t) 100) ∧ pyRound (fmul (fdiv c t) 100) ≤ 100 := by
  have htq : (0 : ℚ) < (t : ℚ) := by exact_mod_cast ht
  have hq0 : (0 : ℚ) ≤ (c : ℚ) / (t : ℚ) := by positivity
  have hq1 : (c : ℚ) / (t : ℚ) ≤ 1 := by
    rw [div_le_one htq] ; exact_mod_cast hc
  have hu : (2 : ℚ) ^ (-53 : ℤ) = 1 / 9007199254740992 := by norm_num
  have hx0 : 0 ≤ fdiv c t := toDouble_nonneg hq0
  have hx1 : fdiv c t ≤ 1 + 1 / 9007199254740992 := by
    have := toDouble_le hq0
    rw [hu] at this
    unfold fdiv
    nlinarith [this]
  have hz0 : (0 : ℚ) ≤ fdiv c t * 100 := by positivity
  have hy0 : 0 ≤ fmul (fdiv c t) 100 := toDouble_nonneg hz0
  have hy1 : fmul (fdiv c t) 100 ≤ 100 + 1 / 4503599627370 := by
    have hle := toDouble_le hz0
    rw [hu] at hle
    unfold fmul
    nlinarith [hle, hx1, hx0]
  constructor
  · exact roundHalfEven_nonneg hy0
  · have h1 : (pyRound (fmul (fdiv c t) 100) : ℚ) ≤ fmul (fdiv c t) 100 + 1/2 :=
      roundHalfEven_le _
    have h2 : (pyRound (fmul (fdiv c t) 100) : ℚ) < 101 := by linarith
    have h3 : pyRound (fmul (fdiv c t) 100) < 101 := by exact_mod_cast h2
    omega

/-- Evaluation helper: compute `toDouble` at a concrete rational from its
binary exponent, the rounded significand, and the resulting value. -/
theorem toDouble_eval_num {q : ℚ} {e : ℤ} {m : ℤ} {r : ℚ} (hq : 0 < q)
    (h1 : (2 : ℚ) ^ e ≤ q) (h2 : q < (2 : ℚ) ^ (e + 1))
    (hm : roundHalfEven (q * 2 ^ ((52 : ℤ) - e)) = m)
    (hr : (m : ℚ) * (2 : ℚ) ^ (e - 52) = r) : toDouble q = r := by
  rw [toDouble_eval hq h1 h2, hm, hr]

/-- C7: for `total_size = 0`, `calculate_memory_split` takes the early
branch — no division is performed — and returns a 0 percent / 0 percent
split with display string "N/A". -/
theorem calculate_memory_split_zero_total (format_size : ℕ → String) (vram_size : Option ℕ) :
    calculate_memory_split format_size 0 vram_size =
      { cpu_size := "0 B", cpu_percent := 0, gpu_size := "0 B", gpu_percent := 0,
        display := "N/A" } := rfl

/-- C8 (amended): for positive `total_size`, the effective VRAM value is
clamped into `[0, total_size]`, and each of `cpu_percent` and
`gpu_percent` lies in `[0, 100]`.  (Their sum can differ from 100 — see
the counterexample below.) -/
theorem calculate_memory_split_percent_range (format_size : ℕ → String)
    (total_size : ℕ) (vram_size : Option ℕ) (h : 0 < total_size) :
    calculate_memory_split format_size total_size vram_size
      = calculate_memory_split format_size total_size
          (some (min (vram_size.getD 0) total_size)) ∧
    0 ≤ (calculate_memory_split format_size total_size vram_size).cpu_percent ∧
    (calculate_memory_split format_size total_size vram_size).cpu_percent ≤ 100 ∧
    0 ≤ (calculate_memory_split format_size total_size vram_size).gpu_percent ∧
    (calculate_memory_split format_size total_size vram_size).gpu_percent ≤ 100 := by
  have hne : total_size ≠ 0 := ne_of_gt h
  have hv : (if total_size < vram_size.getD 0 then total_size else vram_size.getD 0)
      = min (vram_size.getD 0) total_size := by split <;> omega
  have hv2 : (if total_size < min (vram_size.getD 0) total_size then total_size
      else min (vram_size.getD 0) total_size) = min (vram_size.getD 0) total_size := by
    split <;> omega
  have hcpu : (calculate_memory_split format_size total_size vram_size).cpu_percent
      = pyRound (fmul (fdiv (total_size - min (vram_size.getD 0) total_size) total_size) 100) := by
    simp only [calculate_memory_split, if_neg hne, hv]
  have hgpu : (calculate_memory_split format_size total_size vram_size).gpu_percent
      = pyRound (fmul (fdiv (min (vram_size.getD 0) total_size) total_size) 100) := by
    simp only [calculate_memory_split, if_neg hne, hv]
  refine ⟨?_, ?_, ?_, ?_, ?_⟩
  · simp only [calculate_memory_split, if_neg hne, hv, Option.getD_some, hv2]
  · rw [hcpu] ; exact (percent_bounds h (by omega)).1
  · rw [hcpu] ; exact (percent_bounds h (by omega)).2
  · rw [hgpu] ; exact (percent_bounds h (by omega)).1
  · rw [hgpu] ; exact (percent_bounds h (by omega)).2

/-- C8 (counterexample): at `total_size = 40`, `vram_size = 17`, the two
binary64 roundings land on opposite sides of the .5 boundary and the
percentages sum to 99, not 100 — matching CPython, where
`round((23 / 40) * 100) = 57` and `round((17 / 40) * 100) = 42`. -/
theorem calculate_memory_split_sum_counterexample :
    (calculate_memory_split (fun _ => "") 40 (some 17)).cpu_percent = 57 ∧
    (calculate_memory_split (fun _ => "") 40 (some 17)).gpu_percent = 42 ∧
    (calculate_memory_split (fun _ => "") 40 (some 17)).cpu_percent
      + (calculate_memory_split (fun _ => "") 40 (some 17)).gpu_percent ≠ 100 := by
  have hcpu : (calculate_memory_split (fun _ => "") 40 (some 17)).cpu_percent
      = pyRound (fmul (fdiv 23 40) 100) := rfl
  have hgpu : (calculate_memory_split (fun _ => "") 40 (some 17)).gpu_percent
      = pyRound (fmul (fdiv 17 40) 100) := rfl
  have hd1 : fdiv 23 40 = 2589569785738035 / 4503599627370496 := by
    unfold fdiv
    exact toDouble_eval_num (e := -1) (by norm_num) (by norm_num) (by norm_num)
      (roundHalfEven_eval_lt (n := 5179139571476070) (by norm_num) (by norm_num))
      (by norm_num)
  have hd2 : fmul (2589569785738035 / 4503599627370496 : ℚ) 100
      = 8092405580431359 / 140737488355328 := by
    unfold fmul
    exact toDouble_eval_num (e := 5) (by norm_num) (by norm_num) (by norm_num)
      (roundHalfEven_eval_lt (n := 8092405580431359) (by norm_num) (by norm_num))
      (by norm_num)
  have hd3 : pyRound (8092405580431359 / 140737488355328 : ℚ) = 57 := by
    unfold pyRound
    exact roundHalfEven_eval_lt (n := 57) (by norm_num) (by norm_num)
  have hg1 : fdiv 17 40 = 7656119366529843 / 18014398509481984 := by
    unfold fdiv
    exact toDouble_eval_num (e := -2) (by norm_num) (by norm_num) (by norm_num)
      (roundHalfEven_eval_lt (n := 7656119366529843) (by norm_num) (by norm_num))
      (by norm_num)
  have hg2 : fmul (7656119366529843 / 18014398509481984 : ℚ) 100 = 85 / 2 := by
    unfold fmul
    exact toDouble_eval_num (e := 5) (by norm_num) (by norm_num) (by norm_num)
      (roundHalfEven_eval_gt (n := 5981343255101439) (by norm_num) (by norm_num))
      (by norm_num)
  have hg3 : pyRound (85 / 2 : ℚ) = 42 := by
    unfold pyRound
    exact roundHalfEven_eval_half (n := 42) (by norm_num) (by norm_num)
  have h1 : (calculate_memory_split (fun _ => "") 40 (some 17)).cpu_percent = 57 := by
    rw [hcpu, hd1, hd2, hd3]
  have h2 : (calculate_memory_split (fun _ => "") 40 (some 17)).gpu_percent = 42 := by
    rw [hgpu, hg1, hg2, hg3]
  exact ⟨h1, h2, by rw [h1, h2] ; norm_num⟩

/-! ## Session records and service state -/

/-- One session record as stored in the history JSON document.
`started_at` is an ISO-8601 timestamp string, with `""` encoding a
missing `started_at` key (the loader reads it as
`s.get('started_at', '')`).  `ended_at` is `none` when the JSON value is
null or the key is absent.  The two `has...Key` flags record whether the
raw JSON object carried the legacy `timestamp` / `models` keys, which
`load_history` probes with Python's `in`. -/
structure Session where
  model_name : String
  started_at : String
  ended_at : Option String
  families : String
  parameter_size : String
  size : String
  cpu_gpu_split : String
  hasTimestampKey : Bool := false
  hasModelsKey : Bool := false
deriving DecidableEq

/-- One entry of the `current_models` list built by `get_running_models`
and consumed by `update_history`. -/
structure ModelInfo where
  name : String
  families : String
  parameter_size : String
  size : String
  cpu_gpu_split : String
deriving DecidableEq

/-- In-memory state of `OllamaService`: the session history plus the
previous tick's present-set `_previous_model_names`.  The Python set is
modelled as a list with membership semantics. -/
structure OllamaState where
  history : List Session
  previous_model_names : List String
deriving DecidableEq

/-- Python string `<=` as used on ISO-8601 timestamps: lexicographic
comparison by code point, identical to Lean's `String` order
(`String.lt_iff`).  Comparing the underlying character lists keeps the
test kernel-computable. -/
def isoLe (a b : String) : Bool := !decide (b.data < a.data)

theorem isoLe_iff {a b : String} : isoLe a b = true ↔ a ≤ b := by
  unfold isoLe
  rw [Bool.not_eq_true', decide_eq_false_iff_not, String.le_iff_toList_le]
  exact not_lt

/-- Session record created by `update_history` for a newly present model
name: the dict literal inserted at index 0, with `ended_at` unset. -/
def newSession (name : String) (m : ModelInfo) (now : String) : Session :=
  { model_name := name, started_at := now, ended_at := none,
    families := m.families, parameter_size := m.parameter_size,
    size := m.size, cpu_gpu_split := m.cpu_gpu_split }

/-- Lookup in the `model_data` dict built by `update_history`: Python
fills it by iterating the models list, so for duplicate names the last
occurrence wins.  The default is never reached — the function is only
applied to names drawn from the list itself. -/
def model_data (models : List ModelInfo) (name : String) : ModelInfo :=
  ((models.filter (fun m => decide (m.name = name))).getLast?).getD
    { name := name, families := "", parameter_size := "", size := "",
      cpu_gpu_split := "" }

/-- Embeds the inner loop of `update_history` for one removed name:
close the first session in the list for `name` with `ended_at` unset,
then break.  The boolean reports whether a session was closed (the
loop's contribution to `changed`). -/
def closeFirstOpen (name now : String) : List Session → List Session × Bool
  | [] => ([], false)
  | s :: rest =>
    if s.model_name = name ∧ s.ended_at = none then
      ({ s with ended_at := some now } :: rest, true)
    else
      ((s :: (closeFirstOpen name now rest).1), (closeFirstOpen name now rest).2)

/-- Embeds the removal loop of `update_history`: close the first open
session for each name that left the present-set, accumulating whether
any close happened. -/
def applyCloses (now : String) : List String → List Session → List Session × Bool
  | [], h => (h, false)
  | n :: rest, h =>
    ((applyCloses now rest (closeFirstOpen n now h).1).1,
     (closeFirstOpen n now h).2 || (applyCloses now rest (closeFirstOpen n now h).1).2)

/-- Embeds `OllamaService.update_history`.  `models` is the
`current_models` list and `now` the tick timestamp
(`datetime.now().isoformat()`).  Python iterates the sets `new_names`
and `removed_names` in unspecified order; the embedding fixes a
deterministic order, on which no verified property depends.  Returns
the new state together with the `changed` flag — true exactly when the
source calls `save_history`. -/
def update_history (st : OllamaState) (models : List ModelInfo) (now : String) :
    OllamaState × Bool :=
  let current_names := (models.map (fun m => m.name)).dedup
  let new_names := current_names.filter (fun n => decide (n ∉ st.previous_model_names))
  let afterOpens := new_names.foldl
    (fun acc n => newSession n (model_data models n) now :: acc) st.history
  let removed_names := st.previous_model_names.filter (fun n => decide (n ∉ current_names))
  let closed := applyCloses now removed_names afterOpens
  (⟨closed.1, current_names⟩, !new_names.isEmpty || closed.2)

/-- Embeds `OllamaService.save_history`: the document written to the
history file is the full in-memory collection. -/
def save_history (st : OllamaState) : List Session := st.history

/-- Repeated poll ticks: fold `update_history` over a list of
(current_models, now) observations. -/
def run_updates (st : OllamaState) (ticks : List (List ModelInfo × String)) : OllamaState :=
  ticks.foldl (fun s t => (update_history s t.1 t.2).1) st

/-- Decidable test: `s` is an open session for `name`. -/
def isOpenFor (name : String) (s : Session) : Bool :=
  decide (s.model_name = name ∧ s.ended_at = none)

/-- Number of open sessions for `name` in a history list. -/
def openCount (h : List Session) (name : String) : ℕ := h.countP (isOpenFor name)

/-- Invariant: at most one open session per model name. -/
def AtMostOneOpen (h : List Session) : Prop := ∀ name, openCount h name ≤ 1

/-! ## load_history -/

/-- State of the history file as seen by `load_history`. -/
inductive FileState where
  | absent
  | unreadable
  | content (doc : List Session)
deriving DecidableEq

/-- Legacy-format probe of `load_history`: the parsed list is nonempty
and its first record carries both a `timestamp` and a `models` key.
Only the first record is probed (`history[0]`). -/
def isLegacy : List Session → Bool
  | [] => false
  | s :: _ => s.hasTimestampKey && s.hasModelsKey

/-- Orphan repair applied by `load_history` to each surviving record: a
session with `ended_at` unset is closed with `ended_at := started_at`. -/
def closeOrphan (s : Session) : Session :=
  if s.ended_at = none then { s with ended_at := some s.started_at } else s

/-- Embeds `OllamaService.load_history`.  `cutoff_iso` is the ISO string
of now minus the retention window.  A missing file is created holding an
empty JSON list; any read/parse exception is caught and yields `[]` with
the file untouched.  For a parsed list the steps are: legacy wipe, then
the retention filter (`started_at >= cutoff`, a missing `started_at`
read as `""`), then orphan repair — in that order.  Returns the history
and the resulting file state. -/
def load_history (fs : FileState) (cutoff_iso : String) : List Session × FileState :=
  match fs with
  | .absent => ([], .content [])
  | .unreadable => ([], .unreadable)
  | .content doc =>
    ((if isLegacy doc then [] else doc).filter
        (fun s => isoLe cutoff_iso s.started_at) |>.map closeOrphan,
     .content doc)

theorem closeOrphan_started_at (s : Session) :
    (closeOrphan s).started_at = s.started_at := by
  unfold closeOrphan ; split <;> rfl

theorem closeOrphan_ended_at_ne_none (s : Session) :
    (closeOrphan s).ended_at ≠ none := by
  unfold closeOrphan
  split
  · simp
  · rename_i hne
    simpa using hne

/-- C9: when the history file does not exist, `load_history` creates it
containing an empty JSON list and returns the empty collection instead
of raising. -/
theorem load_history_creates_missing_file (cutoff_iso : String) :
    load_history .absent cutoff_iso = ([], .content []) := rfl

/-- C5: for a non-legacy document, `load_history` applies the retention
filter on `started_at` first and the orphan repair only afterwards: old
sessions are dropped, in-window sessions survive (repaired), no returned
session has `ended_at` unset, and every surviving orphan ends up with
`ended_at = started_at`. -/
theorem load_history_retention_then_orphans (doc : List Session) (cutoff_iso : String)
    (hleg : isLegacy doc = false) :
    (load_history (.content doc) cutoff_iso).1
      = (doc.filter (fun s => isoLe cutoff_iso s.started_at)).map closeOrphan ∧
    (∀ s ∈ doc, isoLe cutoff_iso s.started_at = false →
      s ∉ (load_history (.content doc) cutoff_iso).1) ∧
    (∀ s ∈ doc, isoLe cutoff_iso s.started_at = true →
      closeOrphan s ∈ (load_history (.content doc) cutoff_iso).1) ∧
    (∀ s ∈ (load_history (.content doc) cutoff_iso).1, s.ended_at ≠ none) ∧
    (∀ s ∈ doc, isoLe cutoff_iso s.started_at = true → s.ended_at = none →
      (closeOrphan s).ended_at = some s.started_at) := by
  have hpipe : (load_history (.content doc) cutoff_iso).1
      = (doc.filter (fun s => isoLe cutoff_iso s.started_at)).map closeOrphan := by
    simp [load_history, hleg]
  refine ⟨hpipe, ?_, ?_, ?_, ?_⟩
  · intro s _ hold hmem
    rw [hpipe] at hmem
    rcases List.mem_map.mp hmem with ⟨t, htmem, hteq⟩
    rcases List.mem_filter.mp htmem with ⟨_, htfil⟩
    have : t.started_at = s.started_at := by
      rw [← hteq, closeOrphan_started_at]
    rw [this, hold] at htfil
    exact Bool.false_ne_true htfil
  · intro s hmem hin
    rw [hpipe]
    exact List.mem_map_of_mem _ (List.mem_filter.mpr ⟨hmem, hin⟩)
  · intro s hmem
    rw [hpipe] at hmem
    rcases List.mem_map.mp hmem with ⟨t, _, hteq⟩
    rw [← hteq]
    exact closeOrphan_ended_at_ne_none t
  · intro s _ _ hopen
    unfold closeOrphan
    rw [if_pos hopen]

/-- C10: a loaded record whose `started_at` is missing (read as `""`) is
dropped by the retention filter whenever the cutoff string is nonempty —
no surviving session has an empty `started_at`. -/
theorem load_history_drops_missing_started_at (doc : List Session) (cutoff_iso : String)
    (hcut : cutoff_iso ≠ "") :
    ∀ s ∈ (load_history (.content doc) cutoff_iso).1, s.started_at ≠ "" := by
  intro s hmem
  simp only [load_history] at hmem
  rcases List.mem_map.mp hmem with ⟨t, htmem, hteq⟩
  rcases List.mem_filter.mp htmem with ⟨_, htfil⟩
  intro hempty
  have hts : t.started_at = "" := by
    rw [← hteq, closeOrphan_started_at] at hempty
    exact hempty
  rw [hts] at htfil
  -- `isoLe cutoff "" = true` forces `cutoff = ""`
  have hle : ¬ ("" : String).data < cutoff_iso.data := by
    have := htfil
    unfold isoLe at this
    rw [Bool.not_eq_true', decide_eq_false_iff_not] at this
    exact this
  apply hle
  have hdata : cutoff_iso.data ≠ [] := by
    intro hnil
    apply hcut
    cases cutoff_iso with
    | mk d =>
      have hd : d = [] := hnil
      subst hd
      rfl
  cases hcd : cutoff_iso.data with
  | nil => exact absurd hcd hdata
  | cons c cs =>
    show ([] : List Char) < c :: cs
    exact List.nil_lt_cons c cs

/-! ## The at-most-one-open-session invariant -/

theorem openCount_cons (s : Session) (h : List Session) (name : String) :
    openCount (s :: h) name = openCount h name + (if isOpenFor name s then 1 else 0) :=
  List.countP_cons _ _ _

theorem isOpenFor_newSession (k n : String) (m : ModelInfo) (now : String) :
    isOpenFor k (newSession n m now) = decide (n = k) := by
  simp [isOpenFor, newSession]

/-- Effect of the session-opening loop on open counts: each name in the
(duplicate-free) `new_names` list gains exactly one open session. -/
theorem openCount_opensFold (models : List ModelInfo) (now : String) :
    ∀ (l : List String) (h : List Session), l.Nodup →
      ∀ k, openCount
          (l.foldl (fun acc n => newSession n (model_data models n) now :: acc) h) k
        = openCount h k + (if k ∈ l then 1 else 0) := by
  intro l
  induction l with
  | nil => intro h _ k ; simp
  | cons n rest ih =>
    intro h hnd k
    rw [List.foldl_cons, ih _ (List.nodup_cons.mp hnd).2 k, openCount_cons,
      isOpenFor_newSession]
    by_cases hkn : k = n
    · subst hkn
      have hnr : k ∉ rest := (List.nodup_cons.mp hnd).1
      simp [hnr]
    · have : ¬ (n = k) := fun hc => hkn hc.symm
      simp [this, hkn, List.mem_cons]

/-- Effect of closing the first open session for `name`: the open count
for `name` drops by one (to zero if it was zero), other names are
untouched. -/
theorem openCount_closeFirstOpen (name now : String) :
    ∀ (h : List Session) (k : String),
      openCount (closeFirstOpen name now h).1 k
        = if k = name then openCount h k - 1 else openCount h k := by
  intro h
  induction h with
  | nil =>
    intro k
    simp [closeFirstOpen, openCount]
  | cons s rest ih =>
    intro k
    unfold closeFirstOpen
    split
    · rename_i hmatch
      have hclosed : isOpenFor k { s with ended_at := some now } = false := by
        simp [isOpenFor]
      by_cases hk : k = name
      · subst hk
        have hopen : isOpenFor k s = true := by
          simp [isOpenFor, hmatch.1, hmatch.2]
        rw [openCount_cons, openCount_cons, hclosed, hopen]
        simp
      · have hnot : isOpenFor k s = false := by
          simp only [isOpenFor, decide_eq_false_iff_not]
          intro hc
          exact hk (hc.1.symm ▸ hmatch.1.symm ▸ rfl)
        rw [openCount_cons, openCount_cons, hclosed, hnot, if_neg hk]
    · rename_i hmatch
      rw [openCount_cons, ih k, openCount_cons]
      by_cases hk : k = name
      · subst hk
        have hnot : isOpenFor k s = false := by
          simp only [isOpenFor, decide_eq_false_iff_not]
          intro hc
          exact hmatch ⟨hc.1, hc.2⟩
        rw [hnot, if_pos rfl]
        simp
      · simp [hk]

/-- Effect of the removal loop on open counts: every name in the
(duplicate-free) removed list loses one open session. -/
theorem openCount_applyCloses (now : String) :
    ∀ (l : List String) (h : List Session), l.Nodup →
      ∀ k, openCount (applyCloses now l h).1 k
        = if k ∈ l then openCount h k - 1 else openCount h k := by
  intro l
  induction l with
  | nil => intro h _ k ; simp [applyCloses]
  | cons n rest ih =>
    intro h hnd k
    unfold applyCloses
    simp only
    rw [ih _ (List.nodup_cons.mp hnd).2 k, openCount_closeFirstOpen]
    by_cases hkn : k = n
    · subst hkn
      have hnr : k ∉ rest := (List.nodup_cons.mp hnd).1
      simp [hnr]
    · by_cases hkr : k ∈ rest
      · simp [hkn, hkr, List.mem_cons]
      · simp [hkn, hkr, List.mem_cons]

/-- Open sessions are only recorded for names in the previous
present-set (the reconciler's seeding discipline). -/
def OpensWithin (st : OllamaState) : Prop :=
  ∀ name, 0 < openCount st.history name → name ∈ st.previous_model_names

/-- Inductive invariant of the reconciler state. -/
def ReconcilerInv (st : OllamaState) : Prop :=
  AtMostOneOpen st.history ∧ OpensWithin st ∧ st.previous_model_names.Nodup

theorem update_history_preserves_inv (st : OllamaState) (models : List ModelInfo)
    (now : String) (hinv : ReconcilerInv st) :
    ReconcilerInv (update_history st models now).1 := by
  obtain ⟨h1, h2, h3⟩ := hinv
  simp only [update_history]
  set cur := (models.map (fun m => m.name)).dedup with hcur
  set new_names := cur.filter (fun n => decide (n ∉ st.previous_model_names)) with hnew
  set removed_names := st.previous_model_names.filter (fun n => decide (n ∉ cur)) with hrem
  have hcurnd : cur.Nodup := List.nodup_dedup _
  have hnewnd : new_names.Nodup := hcurnd.filter _
  have hremnd : removed_names.Nodup := h3.filter _
  have hnewzero : ∀ n ∈ new_names, openCount st.history n = 0 := by
    intro n hn
    rcases List.mem_filter.mp hn with ⟨_, hdec⟩
    have hnotin : n ∉ st.previous_model_names := of_decide_eq_true hdec
    by_contra hne
    exact hnotin (h2 n (Nat.pos_of_ne_zero hne))
  have hopens : ∀ k, openCount
      (new_names.foldl (fun acc n => newSession n (model_data models n) now :: acc)
        st.history) k
      = openCount st.history k + (if k ∈ new_names then 1 else 0) :=
    openCount_opensFold models now new_names st.history hnewnd
  have hfinal : ∀ k, openCount
      (applyCloses now removed_names
        (new_names.foldl (fun acc n => newSession n (model_data models n) now :: acc)
          st.history)).1 k
      = if k ∈ removed_names
          then openCount st.history k + (if k ∈ new_names then 1 else 0) - 1
          else openCount st.history k + (if k ∈ new_names then 1 else 0) := by
    intro k
    rw [openCount_applyCloses now removed_names _ hremnd k]
    by_cases hk : k ∈ removed_names
    · rw [if_pos hk, if_pos hk, hopens]
    · rw [if_neg hk, if_neg hk, hopens]
  refine ⟨?_, ?_, hcurnd⟩
  · intro k
    rw [hfinal k]
    by_cases hknew : k ∈ new_names
    · have hz := hnewzero k hknew
      by_cases hk : k ∈ removed_names <;> simp [hk, hknew, hz]
    · have hle := h1 k
      by_cases hk : k ∈ removed_names <;> simp [hk, hknew] <;> omega
  · intro k hpos
    rw [hfinal k] at hpos
    by_cases hkrem : k ∈ removed_names
    · exfalso
      rw [if_pos hkrem] at hpos
      rcases List.mem_filter.mp hkrem with ⟨hkprev, hkdec⟩
      have hkcur : k ∉ cur := of_decide_eq_true hkdec
      have hknew : k ∉ new_names := by
        intro hc
        exact hkcur (List.mem_filter.mp hc).1
      rw [if_neg hknew] at hpos
      have := h1 k
      omega
    · rw [if_neg hkrem] at hpos
      by_cases hknew : k ∈ new_names
      · exact (List.mem_filter.mp hknew).1
      · rw [if_neg hknew] at hpos
        have hkprev : k ∈ st.previous_model_names := h2 k (by omega)
        by_contra hkcur
        have : k ∈ removed_names :=
          List.mem_filter.mpr ⟨hkprev, decide_eq_true hkcur⟩
        exact hkrem this

/-- C1: starting from a state produced by `load_history` — no session
open and the previous present-set equal to the set of open sessions'
names — every sequence of `update_history` calls maintains: at most one
session per model name has `ended_at` unset.  Any prefix of a sequence
is itself a sequence, so the invariant holds after each call. -/
theorem at_most_one_open_after_updates (st0 : OllamaState)
    (ticks : List (List ModelInfo × String))
    (hclosed : ∀ s ∈ st0.history, s.ended_at ≠ none)
    (hseed : ∀ n, n ∈ st0.previous_model_names ↔ 0 < openCount st0.history n) :
    AtMostOneOpen (run_updates st0 ticks).history := by
  have hzero : ∀ n, openCount st0.history n = 0 := by
    intro n
    rw [openCount, List.countP_eq_zero]
    intro s hs
    simp only [isOpenFor, decide_eq_true_eq]
    intro hc
    exact hclosed s hs hc.2
  have hprev : st0.previous_model_names = [] := by
    apply List.eq_nil_iff_forall_not_mem.mpr
    intro n hn
    have hpos := (hseed n).mp hn
    rw [hzero n] at hpos
    omega
  have hinv : ReconcilerInv st0 := by
    refine ⟨fun n => ?_, fun n hn => ?_, ?_⟩
    · rw [hzero n] ; omega
    · rw [hzero n] at hn ; omega
    · rw [hprev] ; exact List.nodup_nil
  have hrun : ∀ (ts : List (List ModelInfo × String)) (st : OllamaState),
      ReconcilerInv st → ReconcilerInv (run_updates st ts) := by
    intro ts
    induction ts with
    | nil => intro st h ; exact h
    | cons t rest ih =>
      intro st h
      have hstep := update_history_preserves_inv st t.1 t.2 h
      simpa [run_updates] using ih _ hstep
  exact (hrun ticks st0 hinv).1

/-! ## Idempotence and persist behaviour -/

/-- Core of the idempotence argument: when the previous present-set
already equals the current name set, `update_history` computes empty
diffs, leaves the state unchanged and reports `changed = false`. -/
theorem update_history_unchanged (st : OllamaState) (models : List ModelInfo) (now : String)
    (hp : st.previous_model_names = (models.map (fun m => m.name)).dedup) :
    update_history st models now = (st, false) := by
  have hnew : ((models.map (fun m => m.name)).dedup).filter
      (fun n => decide (n ∉ st.previous_model_names)) = [] := by
    rw [List.filter_eq_nil_iff]
    intro n hn
    rw [hp]
    simp [hn]
  have hrem : st.previous_model_names.filter
      (fun n => decide (n ∉ (models.map (fun m => m.name)).dedup)) = [] := by
    rw [List.filter_eq_nil_iff]
    intro n hn
    rw [hp] at hn
    simp [hn]
  simp only [update_history, hnew, hrem, List.foldl_nil, applyCloses,
    List.isEmpty_nil, Bool.not_true, Bool.false_or]
  rw [← hp]

/-- C6: reconciling twice in a row with an unchanged present-set: the
second call inserts no session, closes none, leaves the state exactly
as it was, and does not persist (`changed` is false). -/
theorem update_history_idempotent (st : OllamaState) (models : List ModelInfo)
    (now now2 : String) :
    update_history (update_history st models now).1 models now2
      = ((update_history st models now).1, false) :=
  update_history_unchanged _ models now2 rfl

theorem closeFirstOpen_preserves (name now : String) :
    ∀ (h : List Session) (s : Session), s ∈ h →
      ∃ s2 ∈ (closeFirstOpen name now h).1,
        s2.model_name = s.model_name ∧ s2.started_at = s.started_at := by
  intro h
  induction h with
  | nil => intro s hs ; cases hs
  | cons t rest ih =>
    intro s hs
    unfold closeFirstOpen
    split
    · rcases List.mem_cons.mp hs with heq | hmem
      · subst heq
        exact ⟨{ s with ended_at := some now }, List.mem_cons_self _ _, rfl, rfl⟩
      · exact ⟨s, List.mem_cons_of_mem _ hmem, rfl, rfl⟩
    · rcases List.mem_cons.mp hs with heq | hmem
      · subst heq
        exact ⟨s, List.mem_cons_self _ _, rfl, rfl⟩
      · rcases ih s hmem with ⟨s2, hs2, e1, e2⟩
        exact ⟨s2, List.mem_cons_of_mem _ hs2, e1, e2⟩

theorem applyCloses_preserves (now : String) :
    ∀ (l : List String) (h : List Session) (s : Session), s ∈ h →
      ∃ s2 ∈ (applyCloses now l h).1,
        s2.model_name = s.model_name ∧ s2.started_at = s.started_at := by
  intro l
  induction l with
  | nil =>
    intro h s hs
    exact ⟨s, hs, rfl, rfl⟩
  | cons n rest ih =>
    intro h s hs
    rcases closeFirstOpen_preserves n now h s hs with ⟨s1, hs1, e1, e2⟩
    rcases ih _ s1 hs1 with ⟨s2, hs2, f1, f2⟩
    exact ⟨s2, hs2, f1.trans e1, f2.trans e2⟩

theorem opensFold_mem (models : List ModelInfo) (now : String) :
    ∀ (l : List String) (h : List Session) (s : Session), s ∈ h →
      s ∈ l.foldl (fun acc n => newSession n (model_data models n) now :: acc) h := by
  intro l
  induction l with
  | nil => intro h s hs ; exact hs
  | cons n rest ih =>
    intro h s hs
    rw [List.foldl_cons]
    exact ih _ s (List.mem_cons_of_mem _ hs)

theorem update_history_preserves_sessions (st : OllamaState) (models : List ModelInfo)
    (now : String) (s : Session) (hs : s ∈ st.history) :
    ∃ s2 ∈ (update_history st models now).1.history,
      s2.model_name = s.model_name ∧ s2.started_at = s.started_at := by
  simp only [update_history]
  exact applyCloses_preserves now _ _ s (opensFold_mem models now _ st.history s hs)

theorem run_updates_preserves_sessions (ticks : List (List ModelInfo × String)) :
    ∀ (st : OllamaState) (s : Session), s ∈ st.history →
      ∃ s2 ∈ (run_updates st ticks).history,
        s2.model_name = s.model_name ∧ s2.started_at = s.started_at := by
  induction ticks with
  | nil => intro st s hs ; exact ⟨s, hs, rfl, rfl⟩
  | cons t rest ih =>
    intro st s hs
    rcases update_history_preserves_sessions st t.1 t.2 s hs with ⟨s1, hs1, e1, e2⟩
    rcases ih _ s1 hs1 with ⟨s2, hs2, f1, f2⟩
    have hstep : run_updates st (t :: rest) = run_updates (update_history st t.1 t.2).1 rest := by
      simp [run_updates]
    rw [hstep]
    exact ⟨s2, hs2, f1.trans e1, f2.trans e2⟩

/-- Sample present model used in concrete reconciler runs. -/
def sampleModel : ModelInfo :=
  { name := "llama3:latest", families := "llama", parameter_size := "7B",
    size := "7.31 GB", cpu_gpu_split := "7.31 GB (100% GPU)" }

/-- The session the first sample tick creates. -/
def sampleOpenSession : Session :=
  { model_name := "llama3:latest", started_at := "2026-02-13T22:00:00", ended_at := none,
    families := "llama", parameter_size := "7B", size := "7.31 GB",
    cpu_gpu_split := "7.31 GB (100% GPU)" }

/-- C4 (counterexample): a first tick opens a session and reports
`changed = true` — the source then attempts the persist.  If that
persist fails, the tick has nevertheless already set
`_previous_model_names`, so a second tick with the same present-set
computes empty diffs and reports `changed = false`: the persist is not
re-attempted, contradicting the claimed natural retry. -/
theorem persist_not_retried_on_same_set :
    (update_history ⟨[], []⟩ [sampleModel] "2026-02-13T22:00:00").2 = true ∧
    (update_history (update_history ⟨[], []⟩ [sampleModel] "2026-02-13T22:00:00").1
        [sampleModel] "2026-02-13T22:05:00").2 = false := by
  constructor
  · decide
  · rw [update_history_unchanged _ [sampleModel] "2026-02-13T22:05:00" rfl]

/-- C4 (amended): after a mutating tick whose persist failed, a tick
with the same present-set does NOT re-attempt the persist; the unsaved
mutations survive in memory — each session keeps its `model_name` and
`started_at` through any further ticks — and `save_history` always
writes the full in-memory collection, so the mutations reach the file
with the next tick that itself produces a diff. -/
theorem failed_persist_retry_behavior (st : OllamaState) (models : List ModelInfo)
    (now now2 : String) (ticks : List (List ModelInfo × String)) (s : Session)
    (hs : s ∈ (update_history st models now).1.history) :
    (update_history (update_history st models now).1 models now2).2 = false ∧
    (∃ s2 ∈ (run_updates (update_history st models now).1 ticks).history,
        s2.model_name = s.model_name ∧ s2.started_at = s.started_at) ∧
    save_history (run_updates (update_history st models now).1 ticks)
      = (run_updates (update_history st models now).1 ticks).history := by
  refine ⟨?_, ?_, rfl⟩
  · rw [update_history_unchanged _ models now2 rfl]
  · exact run_updates_preserves_sessions ticks _ s hs

/-! ## get_running_models -/

/-- Details object of one model in the `/api/ps` payload. -/
structure RawModelDetails where
  family : String
  families : List String
  parameter_size : String
deriving DecidableEq

/-- One model entry of the `/api/ps` payload, with the fields the
service reads.  Optional fields model missing JSON keys. -/
structure RawModel where
  name : String
  size : ℕ
  size_vram : Option ℕ
  details : Option RawModelDetails
  expires_at : Option String
deriving DecidableEq

/-- Outcome of the HTTP fetch in `get_running_models`: a parsed payload,
or one of the failures (connection error, timeout, or any other error —
including a non-2xx status raised by `raise_for_status` — handled by the
generic `except` clause). -/
inductive FetchOutcome where
  | success (data : List RawModel)
  | connectionError
  | timeout
  | httpError (msg : String)
deriving DecidableEq

/-- True for every non-success fetch outcome. -/
def FetchOutcome.isFailure : FetchOutcome → Bool
  | .success _ => false
  | _ => true

/-- The `families_str` field computed per model: the joined `families`
list if nonempty, else the `family` value, defaulting to "Unknown". -/
def families_str (m : RawModel) : String :=
  match (m.details.map (fun d => d.families)).getD [] with
  | [] => (m.details.map (fun d => d.family)).getD "Unknown"
  | fs => String.intercalate ", " fs

/-- The `current_models` list built by the processing loop of
`get_running_models` and handed to `update_history`. -/
def buildCurrentModels (format_size : ℕ → String) (data : List RawModel) : List ModelInfo :=
  data.map fun m =>
    { name := m.name,
      families := families_str m,
      parameter_size := (m.details.map (fun d => d.parameter_size)).getD "",
      size := format_size m.size,
      cpu_gpu_split := (calculate_memory_split format_size m.size
        (some (m.size_vram.getD 0))).display }

/-- Embeds `OllamaService.get_running_models`.  On success the
processing loop runs and `update_history` is called (with the empty
list when no models are running); on any fetch failure an error is
raised from inside the `try` block, before any call to
`update_history`.  The in-place display enrichment of the returned
payload (`formatted_size`, localized `expires_at`, ...) is pure
formatting of the returned value and is elided. -/
def get_running_models (format_size : ℕ → String) (st : OllamaState)
    (outcome : FetchOutcome) (now : String) :
    Except String (List RawModel) × OllamaState :=
  match outcome with
  | .success data =>
      (.ok data, (update_history st (buildCurrentModels format_size data) now).1)
  | .connectionError =>
      (.error "Could not connect to Ollama server. Please ensure it's running and accessible.",
       st)
  | .timeout =>
      (.error "Connection to Ollama server timed out. Please check your network connection.",
       st)
  | .httpError msg =>
      (.error ("Error fetching models: " ++ msg), st)

/-- C3: on any fetch failure `get_running_models` raises and the service
state — session history and previous present-set — is exactly what it
was before the call: no session is opened or closed on a failed tick. -/
theorem get_running_models_failure_no_mutation (format_size : ℕ → String)
    (st : OllamaState) (outcome : FetchOutcome) (now : String)
    (h : outcome.isFailure = true) :
    (get_running_models format_size st outcome now).2 = st ∧
    ∃ msg, (get_running_models format_size st outcome now).1 = Except.error msg := by
  cases outcome with
  | success data => simp [FetchOutcome.isFailure] at h
  | connectionError => exact ⟨rfl, _, rfl⟩
  | timeout => exact ⟨rfl, _, rfl⟩
  | httpError msg => exact ⟨rfl, _, rfl⟩

/-! ## Legacy-format detection -/

/-- A well-formed closed session with a started_at far in the future of
any realistic cutoff. -/
def sampleClosedSession : Session :=
  { model_name := "llama3:latest", started_at := "9999-01-01T00:00:00",
    ended_at := some "9999-01-01T00:00:01", families := "llama",
    parameter_size := "7B", size := "7.31 GB", cpu_gpu_split := "" }

/-- A record of the legacy shape: it carries `timestamp` and `models`
keys and none of the per-session fields. -/
def sampleLegacyRecord : Session :=
  { model_name := "", started_at := "", ended_at := none, families := "",
    parameter_size := "", size := "", cpu_gpu_split := "",
    hasTimestampKey := true, hasModelsKey := true }

/-- C2 (counterexample): a document whose second record has the legacy
shape is NOT discarded as a whole — `load_history` probes only
`history[0]` and here returns the surviving first record. -/
theorem load_history_legacy_not_whole_collection :
    sampleLegacyRecord.hasTimestampKey = true ∧
    sampleLegacyRecord.hasModelsKey = true ∧
    (load_history (.content [sampleClosedSession, sampleLegacyRecord])
        "2020-01-01T00:00:00").1 = [sampleClosedSession] := by
  refine ⟨rfl, rfl, ?_⟩
  decide

/-- C2 (amended): `load_history` discards the entire collection exactly
when the FIRST record of the parsed list has the legacy shape; records
after the first are never probed for shape. -/
theorem load_history_legacy_first_record_wipes (first : Session) (rest : List Session)
    (cutoff_iso : String) (h1 : first.hasTimestampKey = true)
    (h2 : first.hasModelsKey = true) :
    (load_history (.content (first :: rest)) cutoff_iso).1 = [] := by
  simp [load_history, isLegacy, h1, h2]

/-! ## Concrete witnesses -/

/-- An orphan session (ended_at unset) inside the retention window. -/
def sampleOrphanSession : Session :=
  { model_name := "mistral:7b", started_at := "2026-02-13T21:00:00", ended_at := none,
    families := "", parameter_size := "", size := "", cpu_gpu_split := "" }

/-- A closed session far older than the retention window. -/
def sampleOldSession : Session :=
  { model_name := "old:v1", started_at := "2019-01-01T00:00:00",
    ended_at := some "2019-01-01T01:00:00", families := "", parameter_size := "",
    size := "", cpu_gpu_split := "" }

/-- A record with no `started_at` key (read back as the empty string). -/
def sampleNoStartSession : Session :=
  { model_name := "ghost:v1", started_at := "", ended_at := none, families := "",
    parameter_size := "", size := "", cpu_gpu_split := "" }

theorem at_most_one_open_after_updates_witness :
    (∀ s ∈ ([] : List Session), s.ended_at ≠ none) ∧
    (∀ n, n ∈ ([] : List String) ↔ 0 < openCount [] n) ∧
    AtMostOneOpen (run_updates ⟨[], []⟩
      [([sampleModel], "2026-02-13T22:00:00"), ([], "2026-02-13T22:05:00")]).history :=
  ⟨by simp, by simp [openCount], at_most_one_open_after_updates ⟨[], []⟩
    [([sampleModel], "2026-02-13T22:00:00"), ([], "2026-02-13T22:05:00")]
    (by simp) (by simp [openCount])⟩

theorem load_history_legacy_first_record_wipes_witness :
    sampleLegacyRecord.hasTimestampKey = true ∧
    sampleLegacyRecord.hasModelsKey = true ∧
    (load_history (.content [sampleLegacyRecord, sampleClosedSession])
        "2020-01-01T00:00:00").1 = [] :=
  ⟨rfl, rfl, load_history_legacy_first_record_wipes sampleLegacyRecord
    [sampleClosedSession] "2020-01-01T00:00:00" rfl rfl⟩

theorem get_running_models_failure_no_mutation_witness :
    FetchOutcome.timeout.isFailure = true ∧
    ((get_running_models (fun _ => "") ⟨[sampleOpenSession], ["llama3:latest"]⟩
        FetchOutcome.timeout "2026-02-13T22:00:00").2
      = ⟨[sampleOpenSession], ["llama3:latest"]⟩ ∧
    ∃ msg, (get_running_models (fun _ => "") ⟨[sampleOpenSession], ["llama3:latest"]⟩
        FetchOutcome.timeout "2026-02-13T22:00:00").1 = Except.error msg) :=
  ⟨rfl, get_running_models_failure_no_mutation (fun _ => "")
    ⟨[sampleOpenSession], ["llama3:latest"]⟩ FetchOutcome.timeout "2026-02-13T22:00:00" rfl⟩

theorem failed_persist_retry_behavior_witness :
    sampleOpenSession ∈ (update_history ⟨[], []⟩ [sampleModel] "2026-02-13T22:00:00").1.history ∧
    ((update_history (update_history ⟨[], []⟩ [sampleModel] "2026-02-13T22:00:00").1
        [sampleModel] "2026-02-13T22:05:00").2 = false ∧
    (∃ s2 ∈ (run_updates (update_history ⟨[], []⟩ [sampleModel] "2026-02-13T22:00:00").1
        [([], "2026-02-13T22:10:00")]).history,
        s2.model_name = sampleOpenSession.model_name ∧
        s2.started_at = sampleOpenSession.started_at) ∧
    save_history (run_updates (update_history ⟨[], []⟩ [sampleModel] "2026-02-13T22:00:00").1
        [([], "2026-02-13T22:10:00")])
      = (run_updates (update_history ⟨[], []⟩ [sampleModel] "2026-02-13T22:00:00").1
        [([], "2026-02-13T22:10:00")]).history) :=
  ⟨by decide, failed_persist_retry_behavior ⟨[], []⟩ [sampleModel] "2026-02-13T22:00:00"
    "2026-02-13T22:05:00" [([], "2026-02-13T22:10:00")] sampleOpenSession (by decide)⟩

theorem load_history_retention_then_orphans_witness :
    isLegacy [sampleOrphanSession, sampleOldSession] = false ∧
    ((load_history (.content [sampleOrphanSession, sampleOldSession])
        "2026-01-14T00:00:00").1
      = (([sampleOrphanSession, sampleOldSession]).filter
          (fun s => isoLe "2026-01-14T00:00:00" s.started_at)).map closeOrphan ∧
    (∀ s ∈ [sampleOrphanSession, sampleOldSession],
      isoLe "2026-01-14T00:00:00" s.started_at = false →
      s ∉ (load_history (.content [sampleOrphanSession, sampleOldSession])
        "2026-01-14T00:00:00").1) ∧
    (∀ s ∈ [sampleOrphanSession, sampleOldSession],
      isoLe "2026-01-14T00:00:00" s.started_at = true →
      closeOrphan s ∈ (load_history (.content [sampleOrphanSession, sampleOldSession])
        "2026-01-14T00:00:00").1) ∧
    (∀ s ∈ (load_history (.content [sampleOrphanSession, sampleOldSession])
        "2026-01-14T00:00:00").1, s.ended_at ≠ none) ∧
    (∀ s ∈ [sampleOrphanSession, sampleOldSession],
      isoLe "2026-01-14T00:00:00" s.started_at = true → s.ended_at = none →
      (closeOrphan s).ended_at = some s.started_at)) :=
  ⟨rfl, load_history_retention_then_orphans [sampleOrphanSession, sampleOldSession]
    "2026-01-14T00:00:00" rfl⟩

theorem calculate_memory_split_percent_range_witness :
    0 < (7000000000 : ℕ) ∧
    (calculate_memory_split (fun _ => "") 7000000000 (some 1200000000)
        = calculate_memory_split (fun _ => "") 7000000000
            (some (min ((some (1200000000 : ℕ)).getD 0) 7000000000)) ∧
    0 ≤ (calculate_memory_split (fun _ => "") 7000000000 (some 1200000000)).cpu_percent ∧
    (calculate_memory_split (fun _ => "") 7000000000 (some 1200000000)).cpu_percent ≤ 100 ∧
    0 ≤ (calculate_memory_split (fun _ => "") 7000000000 (some 1200000000)).gpu_percent ∧
    (calculate_memory_split (fun _ => "") 7000000000 (some 1200000000)).gpu_percent ≤ 100) :=
  ⟨by norm_num, calculate_memory_split_percent_range (fun _ => "") 7000000000
    (some 1200000000) (by norm_num)⟩

theorem load_history_drops_missing_started_at_witness :
    ("2026-01-14T00:00:00" : String) ≠ "" ∧
    ∀ s ∈ (load_history (.content [sampleNoStartSession]) "2026-01-14T00:00:00").1,
      s.started_at ≠ "" :=
  ⟨by decide, load_history_drops_missing_started_at [sampleNoStartSession]
    "2026-01-14T00:00:00" (by decide)⟩

end OllamaDashboard
